import Mathlib

set_option linter.unusedSectionVars false

/-
  Verification of the permutohedral lattice implementation in
  src/3rdparty/densecrf/permutohedral.h (class Permutohedral).

  The development is a shallow embedding: the numerical code is translated
  into Lean functions over an arbitrary linearly ordered field (instantiated
  at ℚ for executable witnesses and at ℝ where the source's square roots
  appear).  Machine floats are modelled by exact field arithmetic; machine
  ints and shorts by ℤ.  The companion hash table (hashtable.h, not part of
  the provided sources) is modelled from its specified contract.

  Layout: all definitions first, then the theorems.
-/

namespace Permutohedral

variable {α : Type} [LinearOrderedField α] [FloorRing α]

/-! ### Definitions: elevation (lines 140-157) -/

/-- One step of the downward loop of lines 150-157 of permutohedral.h:
given the pair (j-1, cf_j) and the state (elevated entries j+1..d, sm),
produce (elevated entries j..d, sm + cf_j), where
elevated j = sm - j * cf_j. -/
def elevStep (p : ℕ × α) (acc : List α × α) : List α × α :=
  ((acc.2 - ((p.1 : α) + 1) * p.2) :: acc.1, acc.2 + p.2)

/-- Embedding of lines 150-157 of permutohedral.h: elevate a feature vector
f (length d) into the d+1 dimensional lattice space.  cf is the list of
products f(j-1) * scale_factor(j-1); the loop runs j = d down to 1 keeping
the running suffix sum sm, and finally elevated 0 = sm. -/
def elevate (scale f : List α) : List α :=
  let cf := List.zipWith (fun a b => a * b) f scale
  let r := cf.enum.foldr elevStep ([], 0)
  r.2 :: r.1

/-- The scale factors of lines 140-143 of permutohedral.h:
scale_factor i = 1 / sqrt ((i+2)(i+1)) * inv_std_dev with
inv_std_dev = sqrt (2/3) * (d+1). -/
noncomputable def scale_factor (d : ℕ) : List ℝ :=
  (List.range d).map (fun i =>
    1 / Real.sqrt (((i : ℝ) + 2) * ((i : ℝ) + 1)) * (Real.sqrt (2 / 3) * ((d : ℝ) + 1)))

/-! ### Definitions: simplex localization for one point (lines 159-211) -/

/-- down_factor = 1/(d+1), line 160 of permutohedral.h. -/
def down_factor (d : ℕ) : α := 1 / ((d : α) + 1)

/-- Entry i of the elevated vector (0 beyond the end, never accessed). -/
def elevAt (e : List α) (i : ℕ) : α := e.getD i 0

/-- Line 164: rd = round (down_factor * elevated i), the nearest lattice
hyperplane index.  (C's round ties away from zero, Mathlib's rounds half
up; ties never matter for the properties proved here.) -/
def rd (d : ℕ) (e : List α) (i : ℕ) : ℤ := round (down_factor d * elevAt e i)

/-- Line 165: rem0 i = rd * (d+1), the rounded 0-colored lattice point.
The source stores it in a float; its value is always this integer. -/
def rem0 (d : ℕ) (e : List α) (i : ℕ) : ℤ := rd d e i * ((d : ℤ) + 1)

/-- Line 166: the plane-offset sum of the rounded coordinates. -/
def sumRd (d : ℕ) (e : List α) : ℤ := ((List.range (d + 1)).map (rd d e)).sum

/-- The residual elevated i - rem0 i appearing in lines 173-175 and 198. -/
def rho (d : ℕ) (e : List α) (i : ℕ) : α := elevAt e i - ((rem0 d e i : ℤ) : α)

/-- The pairs (i, j) with i < j <= d visited by the nested rank loops of
lines 172-179, in source order. -/
def rankPairs (d : ℕ) : List (ℕ × ℕ) :=
  (List.range d).flatMap (fun i => (List.range (d - i)).map (fun t => (i, i + 1 + t)))

/-- One increment of the rank array at index x. -/
def rankBump (r : ℕ → ℤ) (x : ℕ) : ℕ → ℤ :=
  fun y => if y = x then r y + 1 else r y

/-- Lines 173-178: one comparison step; the smaller residual's index is
out-ranked by the other. -/
def rankStep (d : ℕ) (e : List α) (r : ℕ → ℤ) (p : ℕ × ℕ) : ℕ → ℤ :=
  if rho d e p.1 < rho d e p.2 then rankBump r p.1 else rankBump r p.2

/-- Lines 170-179: the rank array before the plane-offset correction. -/
def rankPre (d : ℕ) (e : List α) : ℕ → ℤ :=
  (rankPairs d).foldl (rankStep d e) (fun _ => 0)

/-- Lines 182-192: rank i + sum, wrapped back into [0, d] by one
addition or subtraction of d+1. -/
def rankCor (d : ℕ) (e : List α) (i : ℕ) : ℤ :=
  let r := rankPre d e i + sumRd d e
  if r < 0 then r + ((d : ℤ) + 1) else if r > (d : ℤ) then r - ((d : ℤ) + 1) else r

/-- Lines 182-192: the matching adjustment of rem0 in the wrap branches. -/
def rem0Cor (d : ℕ) (e : List α) (i : ℕ) : ℤ :=
  let r := rankPre d e i + sumRd d e
  if r < 0 then rem0 d e i + ((d : ℤ) + 1)
  else if r > (d : ℤ) then rem0 d e i - ((d : ℤ) + 1)
  else rem0 d e i

/-- Line 198: v = (elevated i - rem0 i) * down_factor, with the corrected
rem0. -/
def vA (d : ℕ) (e : List α) (i : ℕ) : α :=
  (elevAt e i - ((rem0Cor d e i : ℤ) : α)) * down_factor d

/-- Lines 199-200: the two accumulations into the d+2 slot barycentric
array for coordinate i (the two indices d - rank i and d - rank i + 1 are
distinct, so the sequential updates compose into this one case split). -/
def baryUpd (d : ℕ) (e : List α) (b : ℤ → α) (i : ℕ) : ℤ → α :=
  fun x =>
    if x = (d : ℤ) - rankCor d e i then b x + vA d e i
    else if x = (d : ℤ) - rankCor d e i + 1 then b x - vA d e i
    else b x

/-- Lines 195-201: the accumulated barycentric array (index x of the
d+2 slot scratch array barycentric, zero initialized). -/
def baryAcc (d : ℕ) (e : List α) : ℤ → α :=
  (List.range (d + 1)).foldl (baryUpd d e) (fun _ => 0)

/-- Lines 202-203 and 210: the stored barycentric weight for a simplex
corner; slot 0 receives the wrap-around correction 1 + barycentric (d+1). -/
def weight (d : ℕ) (e : List α) (r : ℕ) : α :=
  if r = 0 then baryAcc d e 0 + (1 + baryAcc d e ((d : ℤ) + 1))
  else baryAcc d e (r : ℤ)

/-- The d+1 weights stored for one point at barycentric_ slots
k*(d+1)..k*(d+1)+d, in remainder order (line 210). -/
def pointWeights (d : ℕ) (e : List α) : List α :=
  (List.range (d + 1)).map (weight d e)

/-- Lines 131-137: the canonical simplex offset table;
canonical (i*(d+1)+j) = i for j <= d-i and i-(d+1) above. -/
def canonical (d i : ℕ) (j : ℤ) : ℤ :=
  if j ≤ (d : ℤ) - (i : ℤ) then (i : ℤ) else (i : ℤ) - ((d : ℤ) + 1)

/-- Lines 206-208: the d-entry key of the simplex corner with the given
remainder: key i = rem0 i + canonical (remainder*(d+1) + rank i).
The source stores keys in shorts; values here stay exact in ℤ. -/
def keyOf (d : ℕ) (e : List α) (remainder : ℕ) : List ℤ :=
  (List.range d).map (fun i => rem0Cor d e i + canonical d remainder (rankCor d e i))

/-- Analysis device (not source code): the strict total order implicit in
the rank loop of lines 172-179: j beats i when j's residual is larger,
with ties broken toward the smaller index (on a tie the loop increments
the rank of the larger index). -/
def beats (d : ℕ) (e : List α) (j i : ℕ) : Prop :=
  rho d e i < rho d e j ∨ (rho d e j = rho d e i ∧ j < i)

instance beatsDecidable (d : ℕ) (e : List α) (j i : ℕ) : Decidable (beats d e j i) := by
  unfold beats
  infer_instance

/-- Analysis device: the closed form of the rank loop, the number of
indices in 0..d that beat x. -/
def rankCount (d : ℕ) (e : List α) (x : ℕ) : ℤ :=
  (((Finset.range (d + 1)).filter (fun j => beats d e j x)).card : ℤ)

/-- Analysis device: the contribution of the comparison for the pair p to
rank x in one step of the loop of lines 172-179. -/
def rankContrib (d : ℕ) (e : List α) (p : ℕ × ℕ) (x : ℕ) : ℤ :=
  if rho d e p.1 < rho d e p.2 then (if x = p.1 then 1 else 0)
  else (if x = p.2 then 1 else 0)

/-! ### Definitions: hash table (modelled from the spec) and init -/

/-- Modelled from the spec: the position of a key in the Key-Indexed
Vertex Store (the list of distinct keys in insertion order), none when
absent. -/
def htLookup : List (List ℤ) → List ℤ → Option ℕ
  | [], _ => none
  | k :: rest, key => if k = key then some 0 else (htLookup rest key).map (· + 1)

/-- Modelled from the spec: the Key-Indexed Vertex Store's find operation
of section 6 (hashtable.h is not among the provided sources).  With
insertIfAbsent, find returns the existing 0-based index or appends the
key at the next dense index; without, it returns the sentinel -1 when
the key is absent and never allocates. -/
def htFind (store : List (List ℤ)) (key : List ℤ) (ins : Bool) : ℤ × List (List ℤ) :=
  match htLookup store key with
  | some i => ((i : ℤ), store)
  | none => if ins then ((store.length : ℤ), store ++ [key]) else (-1, store)

/-- The tables owned by a built Permutohedral object: offset_,
barycentric_ (each (d+1)*N entries, point-major), blur_neighbors_
((d+1)*M entries, axis-major), the hash table's key store, and N, M, d. -/
structure Tables (α : Type) where
  offset : List ℤ
  barycentric : List α
  nbr : List (ℤ × ℤ)
  keys : List (List ℤ)
  N : ℕ
  M : ℕ
  d : ℕ

/-- Line 209 for the d+1 remainders of one point: find-or-insert each
corner key, appending its index to the flat offset_ list. -/
def insertPoint (d : ℕ) (st : List ℤ × List (List ℤ)) (e : List α) :
    List ℤ × List (List ℤ) :=
  (List.range (d + 1)).foldl
    (fun st r =>
      let f := htFind st.2 (keyOf d e r) true
      (st.1 ++ [f.1], f.2)) st

/-- Lines 146-212: process all points, producing the flat offset_ list and
the final key store. -/
def buildPoints (d : ℕ) (elevs : List (List α)) : List ℤ × List (List ℤ) :=
  elevs.foldl (insertPoint d) ([], [])

/-- Lines 238-242: probe key n1 (all coordinates shifted by -1 except axis
j shifted by +d).  For j = d the axis overwrite falls outside the d key
entries the table reads, exactly as in the source. -/
def probe1 (d : ℕ) (key : List ℤ) (j : ℕ) : List ℤ :=
  (List.range d).map (fun k => if k = j then key.getD k 0 + (d : ℤ) else key.getD k 0 - 1)

/-- Lines 238-243: probe key n2 (all coordinates +1 except axis j -d). -/
def probe2 (d : ℕ) (key : List ℤ) (j : ℕ) : List ℤ :=
  (List.range d).map (fun k => if k = j then key.getD k 0 - (d : ℤ) else key.getD k 0 + 1)

/-- Lines 234-248: the flat blur_neighbors_ list, axis-major
(entry j*M + i holds vertex i's axis-j neighbor indices, -1 if absent). -/
def blur_neighbors (d : ℕ) (store : List (List ℤ)) : List (ℤ × ℤ) :=
  (List.range (d + 1)).flatMap (fun j =>
    (List.range store.length).map (fun i =>
      ((htFind store (probe1 d (store.getD i []) j) false).1,
       (htFind store (probe2 d (store.getD i []) j) false).1)))

/-- Lines 109-251: init.  Elevate every feature, locate its simplex,
resolve the corner keys through the hash table, then build the neighbor
table from the final key store.  Parameterized by the scale factor list
(the source computes it with sqrtf at lines 140-143; all downstream
claims hold for every scale choice). -/
def initTables (scale : List α) (features : List (List α)) (d : ℕ) : Tables α :=
  let elevs := features.map (elevate scale)
  let bp := buildPoints d elevs
  { offset := bp.1
    barycentric := elevs.flatMap (pointWeights d)
    nbr := blur_neighbors d bp.2
    keys := bp.2
    N := features.length
    M := bp.2.length
    d := d }

/-! ### Definitions: compute (lines 254-310) -/

/-- Lines 256-257: a size of -1 resolves to N - offset. -/
def resolveSize (N : ℕ) (off : ℕ) (sz : ℤ) : ℤ :=
  if sz = -1 then (N : ℤ) - (off : ℤ) else sz

/-- Scratch buffers of compute, viewed slot-by-channel: the flat array
entry s*value_size + k (0 <= k < value_size) is buf s k.  Slot 0 is the
sentinel reached by neighbor index -1 after the +1 shift. -/
def zeroBuf : ℤ → ℕ → α := fun _ _ => 0

/-- Lines 267-274, one (point, corner) step of splatting: accumulate
w * in(i, k) into slot offset+1 for every channel k < value_size. -/
def splatStep (T : Tables α) (inp : List α) (vs : ℕ) (in_off : ℕ)
    (buf : ℤ → ℕ → α) (p : ℕ × ℕ) : ℤ → ℕ → α :=
  let o := T.offset.getD ((in_off + p.1) * (T.d + 1) + p.2) 0 + 1
  let w := T.barycentric.getD ((in_off + p.1) * (T.d + 1) + p.2) 0
  fun s k => if s = o ∧ k < vs then buf s k + w * inp.getD (p.1 * vs + k) 0 else buf s k

/-- Lines 266-274: splatting all in-range points onto the zeroed buffer. -/
def splat (T : Tables α) (inp : List α) (vs : ℕ) (in_off : ℕ) (n : ℕ) : ℤ → ℕ → α :=
  ((List.range n).flatMap (fun i => (List.range (T.d + 1)).map (fun j => (i, j)))).foldl
    (splatStep T inp vs in_off) zeroBuf

/-- Lines 277-291: one blur pass along axis j.  Slots 1..M of the write
buffer get old + 0.5*(old n1 + old n2) (neighbor indices shifted by +1 so
sentinel -1 reads slot 0); all other slots keep the write buffer's stale
content.  The returned pair is (values, new_values) after the swap of
lines 288-290. -/
def blurPass (T : Tables α) (vs : ℕ) (bufs : (ℤ → ℕ → α) × (ℤ → ℕ → α)) (j : ℕ) :
    (ℤ → ℕ → α) × (ℤ → ℕ → α) :=
  let newb : ℤ → ℕ → α := fun s k =>
    if 1 ≤ s ∧ s ≤ (T.M : ℤ) ∧ k < vs then
      let i := (s - 1).toNat
      let n1 := (T.nbr.getD (j * T.M + i) (0, 0)).1 + 1
      let n2 := (T.nbr.getD (j * T.M + i) (0, 0)).2 + 1
      bufs.1 s k + 1 / 2 * (bufs.1 n1 k + bufs.1 n2 k)
    else bufs.2 s k
  (newb, bufs.1)

/-- The buffer pair (values, new_values) before blur pass j: pass
j reads (blurState j).1 and produces (blurState (j+1)).1. -/
def blurState (T : Tables α) (inp : List α) (vs : ℕ) (in_off : ℕ) (n : ℕ) :
    ℕ → (ℤ → ℕ → α) × (ℤ → ℕ → α)
  | 0 => (splat T inp vs in_off n, zeroBuf)
  | j + 1 => blurPass T vs (blurState T inp vs in_off n j) j

/-- Line 293: alpha = 1 / (1 + 2^(-d)). -/
def alphaVal (d : ℕ) : α := 1 / (1 + (2 : α) ^ (-(d : ℤ)))

/-- Lines 296-305: the sliced output value of channel k of the i-th point
of the output range. -/
def sliceAt (T : Tables α) (vals : ℤ → ℕ → α) (out_off i k : ℕ) : α :=
  ((List.range (T.d + 1)).map (fun j =>
    let o := T.offset.getD ((out_off + i) * (T.d + 1) + j) 0 + 1
    let w := T.barycentric.getD ((out_off + i) * (T.d + 1) + j) 0
    w * vals o k * alphaVal T.d)).sum

/-- Lines 254-310: compute.  The input list holds the in-range points'
values (in(i,k) = inp (i*value_size + k)); the result is the flat output
array, out_size*value_size entries. -/
def compute (T : Tables α) (inp : List α) (vs : ℕ) (in_off out_off : ℕ)
    (in_sz out_sz : ℤ) : List α :=
  let inN := (resolveSize T.N in_off in_sz).toNat
  let outN := (resolveSize T.N out_off out_sz).toNat
  let final := (blurState T inp vs in_off inN (T.d + 1)).1
  (List.range outN).flatMap (fun i =>
    (List.range vs).map (fun k => sliceAt T final out_off i k))

/-! ### Definitions: raw member state, copy and assignment (lines 44-107) -/

/-- The raw member state of a Permutohedral object (lines 44-57): three
possibly-NULL owned arrays and the three counters.  A NULL pointer is
None; an allocated array is the list of its elements. -/
structure PermutohedralMem (α : Type) where
  offset : Option (List ℤ)
  barycentric : Option (List α)
  blur_neighbors : Option (List (ℤ × ℤ))
  N : ℕ
  M : ℕ
  d : ℕ

/-- Lines 61-62: the default constructor. -/
def defaultMem : PermutohedralMem α :=
  { offset := none, barycentric := none, blur_neighbors := none, N := 0, M := 0, d := 0 }

/-- Lines 64-78: the copy constructor.  Each non-NULL table is copied by
a memcpy of (d+1)*N elements, modelled by List.take ((d+1)*N) (exact
whenever the source array holds at least that many elements, as in the
failing input exhibited below).  Note the source uses (d_+1)*N_ for
blur_neighbors_ although init allocates it with (d_+1)*M_ entries. -/
def copyCtor (o : PermutohedralMem α) : PermutohedralMem α :=
  { offset := o.offset.map (fun l => l.take ((o.d + 1) * o.N))
    barycentric := o.barycentric.map (fun l => l.take ((o.d + 1) * o.N))
    blur_neighbors := o.blur_neighbors.map (fun l => l.take ((o.d + 1) * o.N))
    N := o.N
    M := o.M
    d := o.d }

/-- Lines 80-101: copy assignment for distinct objects (the self-assignment
guard of line 82 returns the object unchanged and cannot alias here): the
old tables are freed and the same (d+1)*N element memcpys as in the copy
constructor are performed. -/
def assignOp (_self o : PermutohedralMem α) : PermutohedralMem α :=
  { offset := o.offset.map (fun l => l.take ((o.d + 1) * o.N))
    barycentric := o.barycentric.map (fun l => l.take ((o.d + 1) * o.N))
    blur_neighbors := o.blur_neighbors.map (fun l => l.take ((o.d + 1) * o.N))
    N := o.N
    M := o.M
    d := o.d }

/-- The member state of a built Permutohedral object holding the tables
produced by init. -/
def toMem (T : Tables α) : PermutohedralMem α :=
  { offset := some T.offset
    barycentric := some T.barycentric
    blur_neighbors := some T.nbr
    N := T.N
    M := T.M
    d := T.d }

/-- The tables built by init from the single feature point [0] with d = 1
(value established in initTables_single below): N = 1, M = 2, weights
(1, 0), and the two vertices are mutual axis neighbors. -/
def T1 : Tables ℚ :=
  { offset := [0, 1], barycentric := [1, 0],
    nbr := [(1, -1), (-1, 0), (-1, 1), (0, -1)],
    keys := [[0], [1]], N := 1, M := 2, d := 1 }

/-! ### Theorems: elevation sum (C8) -/

theorem elev_foldr_spec (n : ℕ) (cf : List α) :
    ((cf.enumFrom n).foldr elevStep ([], 0)).2 = cf.sum ∧
    ((cf.enumFrom n).foldr elevStep ([], 0)).1.sum = -((n : α) + 1) * cf.sum := by
  induction cf generalizing n with
  | nil => simp [List.enumFrom]
  | cons c rest ih =>
    obtain ⟨h2, h1⟩ := ih (n + 1)
    constructor
    · simp only [List.enumFrom, List.foldr_cons, elevStep, h2, List.sum_cons]
      ring
    · simp only [List.enumFrom, List.foldr_cons, elevStep, List.sum_cons, h1, h2]
      push_cast
      ring

/-- The sum of the elevated coordinates vanishes, for any scale factors. -/
theorem elevate_sum (scale f : List α) : (elevate scale f).sum = 0 := by
  unfold elevate
  obtain ⟨h2, h1⟩ := elev_foldr_spec 0 (List.zipWith (fun a b => a * b) f scale)
  simp only [List.enum]
  rw [List.sum_cons, h2, h1]
  ring

/-- C8: for every d-dimensional feature vector (entries in ℝ, exact
arithmetic), the elevated vector produced by init's cumulative-sum
construction with the scale factors 1/sqrt((i+2)(i+1)) * sqrt(2/3)*(d+1)
has coordinates summing to zero exactly. -/
theorem elevated_sum_zero (d : ℕ) (f : List ℝ) :
    (elevate (scale_factor d) f).sum = 0 :=
  elevate_sum (scale_factor d) f

/-! ### Theorems: the concrete single-point lattice (d = 1, feature [0]) -/

theorem elevate_single : elevate (α := ℚ) [1] [0] = [0, 0] := by
  norm_num [elevate, elevStep, List.enum, List.enumFrom]

theorem rd_single (i : ℕ) : rd (α := ℚ) 1 [0, 0] i = 0 := by
  rcases i with _ | _ | i <;>
    simp [rd, down_factor, elevAt, List.getD]

theorem sumRd_single : sumRd (α := ℚ) 1 [0, 0] = 0 := by
  simp [sumRd, List.range_succ, rd_single]

theorem rho_single (i : ℕ) : rho (α := ℚ) 1 [0, 0] i = 0 := by
  rcases i with _ | _ | i <;>
    simp [rho, rem0, rd_single, elevAt, List.getD]

theorem rankPre_single : rankPre (α := ℚ) 1 [0, 0] = fun y => if y = 1 then 1 else 0 := by
  funext y
  simp [rankPre, rankPairs, List.range_succ, rankStep, rho_single, rankBump]

theorem rankCor_single (i : ℕ) :
    rankCor (α := ℚ) 1 [0, 0] i = if i = 1 then 1 else 0 := by
  simp only [rankCor, rankPre_single, sumRd_single]
  rcases eq_or_ne i 1 with h | h <;> simp [h]

theorem rem0Cor_single (i : ℕ) : rem0Cor (α := ℚ) 1 [0, 0] i = 0 := by
  simp only [rem0Cor, rankPre_single, sumRd_single, rem0, rd_single]
  rcases eq_or_ne i 1 with h | h <;> simp [h]

theorem vA_single (i : ℕ) : vA (α := ℚ) 1 [0, 0] i = 0 := by
  rcases i with _ | _ | i <;>
    simp [vA, rem0Cor_single, elevAt, List.getD]

theorem baryAcc_single (x : ℤ) : baryAcc (α := ℚ) 1 [0, 0] x = 0 := by
  simp [baryAcc, List.range_succ, baryUpd, vA_single]

theorem pointWeights_single : pointWeights (α := ℚ) 1 [0, 0] = [1, 0] := by
  simp [pointWeights, List.range_succ, weight, baryAcc_single]

theorem keyOf_single_zero : keyOf (α := ℚ) 1 [0, 0] 0 = [0] := by
  simp [keyOf, rem0Cor_single, rankCor_single, canonical, List.range_succ]

theorem keyOf_single_one : keyOf (α := ℚ) 1 [0, 0] 1 = [1] := by
  simp [keyOf, rem0Cor_single, rankCor_single, canonical, List.range_succ]

theorem initTables_single : initTables (α := ℚ) [1] [[0]] 1 = T1 := by
  show initTables (α := ℚ) [1] [[0]] 1 =
      { offset := [0, 1], barycentric := [1, 0],
        nbr := [(1, -1), (-1, 0), (-1, 1), (0, -1)],
        keys := [[0], [1]], N := 1, M := 2, d := 1 }
  have hb : buildPoints 1 [([0, 0] : List ℚ)] = ([0, 1], [[0], [1]]) := by
    simp [buildPoints, insertPoint, List.range_succ, keyOf_single_zero, keyOf_single_one,
      htFind, htLookup]
  simp only [initTables, List.map_cons, List.map_nil, hb, elevate_single,
    List.flatMap_cons, List.flatMap_nil, pointWeights_single]
  norm_num [blur_neighbors, probe1, probe2, htFind, htLookup, List.range_succ, List.getD]

/-! ### Theorems: C10, C9, C1 -/

/-- C10: on a default-constructed (unbuilt) Permutohedral (N = M = d = 0,
NULL tables, modelled as empty tables) with default range arguments, the
input and output sizes both resolve to 0 and compute produces no output
entries at all, for every input array and every value_size. -/
theorem compute_unbuilt_noop (inp : List α) (vs : ℕ) :
    resolveSize (defaultMem (α := α)).N 0 (-1) = 0 ∧
    compute ({ offset := [], barycentric := [], nbr := [], keys := [],
               N := 0, M := 0, d := 0 } : Tables α) inp vs 0 0 (-1) (-1) = [] := by
  refine ⟨by simp [resolveSize, defaultMem], ?_⟩
  simp [compute, resolveSize]

/-- C9: the whole pipeline (init on a feature array, then compute on a
value array with given ranges) is a deterministic function of its inputs:
bit-identical inputs yield bit-identical outputs across two runs. -/
theorem pipeline_deterministic
    (scale₁ scale₂ : List α) (feat₁ feat₂ : List (List α)) (d₁ d₂ : ℕ)
    (inp₁ inp₂ : List α) (vs₁ vs₂ in_off₁ in_off₂ out_off₁ out_off₂ : ℕ)
    (in_sz₁ in_sz₂ out_sz₁ out_sz₂ : ℤ)
    (hs : scale₁ = scale₂) (hf : feat₁ = feat₂) (hd : d₁ = d₂)
    (hi : inp₁ = inp₂) (hv : vs₁ = vs₂) (hio : in_off₁ = in_off₂)
    (hoo : out_off₁ = out_off₂) (his : in_sz₁ = in_sz₂) (hos : out_sz₁ = out_sz₂) :
    compute (initTables scale₁ feat₁ d₁) inp₁ vs₁ in_off₁ out_off₁ in_sz₁ out_sz₁
      = compute (initTables scale₂ feat₂ d₂) inp₂ vs₂ in_off₂ out_off₂ in_sz₂ out_sz₂ := by
  subst hs hf hd hi hv hio hoo his hos
  rfl

theorem pipeline_deterministic_witness :
    compute (initTables (α := ℚ) [1] [[0], [1/10]] 1) [1, 0] 1 0 0 (-1) (-1)
      = compute (initTables (α := ℚ) [1] [[0], [1/10]] 1) [1, 0] 1 0 0 (-1) (-1) :=
  pipeline_deterministic [1] [1] [[0], [1/10]] [[0], [1/10]] 1 1 [1, 0] [1, 0]
    1 1 0 0 0 0 (-1) (-1) (-1) (-1) rfl rfl rfl rfl rfl rfl rfl rfl rfl

/-- C1 (code bug): for the lattice built from the single feature point [0]
with d = 1 (so N = 1 but M = 2), the copy constructor and copy assignment
copy only (d+1)*N = 2 of the (d+1)*M = 4 Neighbor Table entries, so the
copy's blur_neighbors_ array is not element-for-element equal to the
source's (it is a strict prefix), while offset_ and barycentric_ are
copied in full. -/
theorem copy_drops_neighbor_table :
    (copyCtor (toMem (initTables (α := ℚ) [1] [[0]] 1))).blur_neighbors
        ≠ (toMem (initTables (α := ℚ) [1] [[0]] 1)).blur_neighbors ∧
    (assignOp (defaultMem (α := ℚ)) (toMem (initTables (α := ℚ) [1] [[0]] 1))).blur_neighbors
        ≠ (toMem (initTables (α := ℚ) [1] [[0]] 1)).blur_neighbors ∧
    (copyCtor (toMem (initTables (α := ℚ) [1] [[0]] 1))).offset
        = (toMem (initTables (α := ℚ) [1] [[0]] 1)).offset ∧
    (copyCtor (toMem (initTables (α := ℚ) [1] [[0]] 1))).barycentric
        = (toMem (initTables (α := ℚ) [1] [[0]] 1)).barycentric := by
  rw [initTables_single]
  refine ⟨?_, ?_, ?_, ?_⟩ <;> simp [copyCtor, assignOp, toMem, defaultMem, T1]

/-! ### Theorems: blur structure (C3, C7) -/

/-- C3: in compute, pass j+1 of the blur updates every real vertex i from
the result of pass j as new = old + 0.5*(old n1 + old n2), where n1, n2
are vertex i's axis-j neighbors shifted by +1 (so the sentinel -1 reads
slot 0), and after the swap the new_values buffer of pass j+1 is pass
j's values buffer (axis j+1 blurs the result of axis j). -/
theorem blur_pass_recurrence (T : Tables α) (inp : List α) (vs in_off n : ℕ)
    (j i k : ℕ) (hj : j ≤ T.d) (hi : i < T.M) (hk : k < vs) :
    (blurState T inp vs in_off n (j + 1)).1 ((i : ℤ) + 1) k
      = (blurState T inp vs in_off n j).1 ((i : ℤ) + 1) k
        + 1 / 2 * ((blurState T inp vs in_off n j).1 ((T.nbr.getD (j * T.M + i) (0, 0)).1 + 1) k
                 + (blurState T inp vs in_off n j).1 ((T.nbr.getD (j * T.M + i) (0, 0)).2 + 1) k)
    ∧ (blurState T inp vs in_off n (j + 1)).2 = (blurState T inp vs in_off n j).1 := by
  constructor
  · have hcond : 1 ≤ (i : ℤ) + 1 ∧ (i : ℤ) + 1 ≤ (T.M : ℤ) ∧ k < vs :=
      ⟨by omega, by omega, hk⟩
    have htn : ((i : ℤ) + 1 - 1).toNat = i := by omega
    show (blurPass T vs (blurState T inp vs in_off n j) j).1 ((i : ℤ) + 1) k = _
    simp only [blurPass, if_pos hcond, htn]
  · rfl

theorem blur_pass_recurrence_witness :
    (0 ≤ (initTables (α := ℚ) [1] [[0]] 1).d ∧
     0 < (initTables (α := ℚ) [1] [[0]] 1).M ∧ 0 < 1) ∧
    ((blurState (initTables (α := ℚ) [1] [[0]] 1) [1] 1 0 1 (0 + 1)).1 ((0 : ℤ) + 1) 0
      = (blurState (initTables (α := ℚ) [1] [[0]] 1) [1] 1 0 1 0).1 ((0 : ℤ) + 1) 0
        + 1 / 2 *
          ((blurState (initTables (α := ℚ) [1] [[0]] 1) [1] 1 0 1 0).1
             (((initTables (α := ℚ) [1] [[0]] 1).nbr.getD
                 (0 * (initTables (α := ℚ) [1] [[0]] 1).M + 0) (0, 0)).1 + 1) 0
           + (blurState (initTables (α := ℚ) [1] [[0]] 1) [1] 1 0 1 0).1
               (((initTables (α := ℚ) [1] [[0]] 1).nbr.getD
                   (0 * (initTables (α := ℚ) [1] [[0]] 1).M + 0) (0, 0)).2 + 1) 0)
     ∧ (blurState (initTables (α := ℚ) [1] [[0]] 1) [1] 1 0 1 (0 + 1)).2
        = (blurState (initTables (α := ℚ) [1] [[0]] 1) [1] 1 0 1 0).1) :=
  ⟨⟨by simp [initTables_single, T1], by simp [initTables_single, T1], Nat.zero_lt_one⟩,
   blur_pass_recurrence (initTables [1] [[0]] 1) [1] 1 0 1 0 0 0
     (by simp [initTables_single, T1]) (by simp [initTables_single, T1]) Nat.zero_lt_one⟩

/-- Splatting writes only to slots offset+1 >= 1, so slot 0 stays zero. -/
theorem splat_foldl_sentinel (T : Tables α) (inp : List α) (vs in_off : ℕ)
    (hoff : ∀ idx, 0 ≤ T.offset.getD idx 0) (l : List (ℕ × ℕ)) (buf : ℤ → ℕ → α)
    (hbuf : ∀ k, buf 0 k = 0) (k : ℕ) :
    (l.foldl (splatStep T inp vs in_off) buf) 0 k = 0 := by
  induction l generalizing buf with
  | nil => exact hbuf k
  | cons p rest ih =>
    refine ih _ (fun q => ?_)
    simp only [splatStep]
    have hno : ¬((0 : ℤ) = T.offset.getD ((in_off + p.1) * (T.d + 1) + p.2) 0 + 1 ∧ q < vs) := by
      rintro ⟨h1, -⟩
      have := hoff ((in_off + p.1) * (T.d + 1) + p.2)
      omega
    rw [if_neg hno]
    exact hbuf q

/-- The sentinel slot 0 of both scratch buffers is zero before and after
every blur pass (it is zeroed at allocation, splatting only touches slots
offset+1 >= 1, and the blur writes only slots 1..M). -/
theorem blurState_sentinel (T : Tables α) (inp : List α) (vs in_off n : ℕ)
    (hoff : ∀ idx, 0 ≤ T.offset.getD idx 0) (j k : ℕ) :
    (blurState T inp vs in_off n j).1 0 k = 0 ∧
    (blurState T inp vs in_off n j).2 0 k = 0 := by
  induction j with
  | zero =>
    exact ⟨splat_foldl_sentinel T inp vs in_off hoff _ zeroBuf (fun _ => rfl) k, rfl⟩
  | succ j ih =>
    constructor
    · show (blurPass T vs (blurState T inp vs in_off n j) j).1 0 k = 0
      simp only [blurPass]
      rw [if_neg (by omega)]
      exact ih.2
    · exact ih.1

/-- C7: throughout every blur pass of compute on a built lattice (all
stored offsets are nonnegative), the sentinel slot 0 of the buffer being
read holds zero, so a neighbor reference of -1 (reading slot 0 after the
+1 shift) contributes exactly zero to the blurred value of every vertex
on every axis. -/
theorem sentinel_slot_contributes_zero (T : Tables α) (inp : List α) (vs in_off n : ℕ)
    (hoff : ∀ idx, 0 ≤ T.offset.getD idx 0) (j k i : ℕ) :
    (blurState T inp vs in_off n j).1 0 k = 0 ∧
    ((T.nbr.getD (j * T.M + i) (0, 0)).1 = -1 →
      (blurState T inp vs in_off n j).1 ((T.nbr.getD (j * T.M + i) (0, 0)).1 + 1) k = 0) ∧
    ((T.nbr.getD (j * T.M + i) (0, 0)).2 = -1 →
      (blurState T inp vs in_off n j).1 ((T.nbr.getD (j * T.M + i) (0, 0)).2 + 1) k = 0) := by
  have h := blurState_sentinel T inp vs in_off n hoff j k
  refine ⟨h.1, fun h1 => ?_, fun h2 => ?_⟩
  · rw [h1]
    norm_num
    exact h.1
  · rw [h2]
    norm_num
    exact h.1

theorem sentinel_slot_contributes_zero_witness :
    (∀ idx, 0 ≤ (initTables (α := ℚ) [1] [[0]] 1).offset.getD idx 0) ∧
    ((blurState (initTables (α := ℚ) [1] [[0]] 1) [1] 1 0 1 1).1 0 0 = 0 ∧
     (((initTables (α := ℚ) [1] [[0]] 1).nbr.getD
         (1 * (initTables (α := ℚ) [1] [[0]] 1).M + 0) (0, 0)).1 = -1 →
       (blurState (initTables (α := ℚ) [1] [[0]] 1) [1] 1 0 1 1).1
         (((initTables (α := ℚ) [1] [[0]] 1).nbr.getD
             (1 * (initTables (α := ℚ) [1] [[0]] 1).M + 0) (0, 0)).1 + 1) 0 = 0) ∧
     (((initTables (α := ℚ) [1] [[0]] 1).nbr.getD
         (1 * (initTables (α := ℚ) [1] [[0]] 1).M + 0) (0, 0)).2 = -1 →
       (blurState (initTables (α := ℚ) [1] [[0]] 1) [1] 1 0 1 1).1
         (((initTables (α := ℚ) [1] [[0]] 1).nbr.getD
             (1 * (initTables (α := ℚ) [1] [[0]] 1).M + 0) (0, 0)).2 + 1) 0 = 0)) := by
  have hoff : ∀ idx, 0 ≤ (initTables (α := ℚ) [1] [[0]] 1).offset.getD idx 0 := by
    intro idx
    rw [initTables_single]
    rcases idx with _ | _ | m <;> simp [T1, List.getD]
  exact ⟨hoff, sentinel_slot_contributes_zero (initTables [1] [[0]] 1) [1] 1 0 1 hoff 1 0 0⟩

/-! ### Theorems: range slicing (C5) -/

theorem flatMapRange_length (n vs : ℕ) (g : ℕ → ℕ → α) :
    ((List.range n).flatMap (fun i => (List.range vs).map (g i))).length = n * vs := by
  induction n with
  | zero => simp
  | succ m ih =>
    rw [List.range_succ, List.flatMap_append]
    simp [ih, Nat.succ_mul]

theorem flatMapRange_getD (g : ℕ → ℕ → α) (n vs i k : ℕ) (hi : i < n) (hk : k < vs) :
    ((List.range n).flatMap (fun p => (List.range vs).map (g p))).getD (i * vs + k) 0
      = g i k := by
  induction n with
  | zero => omega
  | succ m ih =>
    rw [List.range_succ, List.flatMap_append]
    rcases Nat.lt_or_ge i m with hlt | hge
    · rw [List.getD_append]
      · exact ih hlt
      · rw [flatMapRange_length]
        calc i * vs + k < i * vs + vs := by omega
        _ = (i + 1) * vs := by ring
        _ ≤ m * vs := Nat.mul_le_mul_right vs (by omega)
    · have him : i = m := by omega
      subst him
      rw [List.getD_append_right]
      · rw [flatMapRange_length]
        simp only [List.flatMap_cons, List.flatMap_nil, List.append_nil]
        have : i * vs + k - i * vs = k := by omega
        rw [this, List.getD_eq_getElem?_getD, List.getElem?_map, List.getElem?_range hk]
        rfl
      · rw [flatMapRange_length]
        omega

/-- C5: compute restricted to the contiguous output range
(out_offset, out_size) produces at output slot i, channel k, exactly the
value the full-range compute (default range) produces at point
out_offset + i. -/
theorem range_slicing_consistent (T : Tables α) (inp : List α) (vs in_off : ℕ)
    (in_sz : ℤ) (out_off out_sz i k : ℕ)
    (hN : out_off + out_sz ≤ T.N) (hi : i < out_sz) (hk : k < vs) :
    (compute T inp vs in_off out_off in_sz (out_sz : ℤ)).getD (i * vs + k) 0
      = (compute T inp vs in_off 0 in_sz (-1)).getD ((out_off + i) * vs + k) 0 := by
  have h1 : (resolveSize T.N out_off (out_sz : ℤ)).toNat = out_sz := by
    simp only [resolveSize]
    rw [if_neg (by omega)]
    omega
  have h2 : (resolveSize T.N 0 (-1)).toNat = T.N := by
    simp [resolveSize]
  simp only [compute, h1, h2]
  rw [flatMapRange_getD _ out_sz vs i k hi hk,
    flatMapRange_getD _ T.N vs (out_off + i) k (by omega) hk]
  simp [sliceAt]

/-! ### Theorems: single-point compute evaluation (C4) -/

theorem T1_offset : T1.offset = [0, 1] := rfl

theorem T1_bary : T1.barycentric = [1, 0] := rfl

theorem T1_nbr : T1.nbr = [(1, -1), (-1, 0), (-1, 1), (0, -1)] := rfl

theorem T1_N : T1.N = 1 := rfl

theorem T1_M : T1.M = 2 := rfl

theorem T1_d : T1.d = 1 := rfl

theorem splat_T1_zero (inp : List ℚ) (vs k : ℕ) : splat T1 inp vs 0 1 0 k = 0 := by
  norm_num [splat, splatStep, zeroBuf, List.range_succ, T1, List.getD]

theorem splat_T1_one (inp : List ℚ) (vs k : ℕ) (hk : k < vs) :
    splat T1 inp vs 0 1 1 k = inp.getD k 0 := by
  norm_num [splat, splatStep, zeroBuf, List.range_succ, T1, List.getD, hk]

theorem splat_T1_two (inp : List ℚ) (vs k : ℕ) : splat T1 inp vs 0 1 2 k = 0 := by
  norm_num [splat, splatStep, zeroBuf, List.range_succ, T1, List.getD]

theorem blur1_T1_zero (inp : List ℚ) (vs k : ℕ) :
    (blurState T1 inp vs 0 1 1).1 0 k = 0 := by
  show (blurPass T1 vs (blurState T1 inp vs 0 1 0) 0).1 0 k = 0
  simp only [blurPass]
  rw [if_neg (by omega)]
  rfl

theorem blur1_T1_one (inp : List ℚ) (vs k : ℕ) (hk : k < vs) :
    (blurState T1 inp vs 0 1 1).1 1 k = inp.getD k 0 := by
  show (blurPass T1 vs (blurState T1 inp vs 0 1 0) 0).1 1 k = _
  simp only [blurPass, blurState]
  rw [if_pos ⟨by norm_num, by norm_num [T1_M], hk⟩]
  norm_num [T1_M, T1_nbr, List.getD]
  rw [splat_T1_one inp vs k hk, splat_T1_two, splat_T1_zero]
  rw [List.getD_eq_getElem?_getD]
  ring

theorem blur1_T1_two (inp : List ℚ) (vs k : ℕ) (hk : k < vs) :
    (blurState T1 inp vs 0 1 1).1 2 k = 1 / 2 * inp.getD k 0 := by
  show (blurPass T1 vs (blurState T1 inp vs 0 1 0) 0).1 2 k = _
  simp only [blurPass, blurState]
  rw [if_pos ⟨by norm_num, by norm_num [T1_M], hk⟩]
  norm_num [T1_M, T1_nbr, List.getD]
  rw [splat_T1_one inp vs k hk, splat_T1_two, splat_T1_zero]
  rw [List.getD_eq_getElem?_getD]
  ring

theorem blur2_T1_one (inp : List ℚ) (vs k : ℕ) (hk : k < vs) :
    (blurState T1 inp vs 0 1 2).1 1 k = 5 / 4 * inp.getD k 0 := by
  show (blurPass T1 vs (blurState T1 inp vs 0 1 1) 1).1 1 k = _
  simp only [blurPass]
  rw [if_pos ⟨by norm_num, by norm_num [T1_M], hk⟩]
  norm_num [T1_M, T1_nbr, List.getD]
  rw [blur1_T1_one inp vs k hk, blur1_T1_two inp vs k hk, blur1_T1_zero]
  rw [List.getD_eq_getElem?_getD]
  ring

theorem compute_T1_eval (vs : ℕ) (inp : List ℚ) :
    compute T1 inp vs 0 0 (-1) (-1)
      = (List.range vs).map (fun k => 5 / 6 * inp.getD k 0) := by
  have hres : (resolveSize T1.N 0 (-1)).toNat = 1 := by
    norm_num [resolveSize, T1_N]
  show (List.range (resolveSize T1.N 0 (-1)).toNat).flatMap
      (fun i => (List.range vs).map
        (fun k => sliceAt T1 (blurState T1 inp vs 0 (resolveSize T1.N 0 (-1)).toNat (T1.d + 1)).1 0 i k)) = _
  rw [hres]
  have hd : T1.d + 1 = 2 := rfl
  rw [hd]
  have hr1 : List.range 1 = [0] := rfl
  simp only [hr1, List.flatMap_cons, List.flatMap_nil, List.append_nil]
  refine List.map_congr_left (fun k hk => ?_)
  rw [List.mem_range] at hk
  show sliceAt T1 (blurState T1 inp vs 0 1 2).1 0 0 k = 5 / 6 * inp.getD k 0
  rw [sliceAt]
  norm_num [T1_d, T1_offset, T1_bary, List.range_succ, List.getD, alphaVal]
  rw [blur2_T1_one inp vs k hk]
  rw [List.getD_eq_getElem?_getD]
  ring

/-- C4 (counterexample): for the lattice built from the single feature
point [0] with d = 1, compute applied to the value vector [1] returns
[5/6], not [1]: the splat, blur, alpha, slice round trip is not the
identity on a single point. -/
theorem single_point_compute_not_identity :
    compute (initTables (α := ℚ) [1] [[0]] 1) [1] 1 0 0 (-1) (-1) ≠ [1] := by
  rw [initTables_single, compute_T1_eval]
  have hr1 : List.range 1 = [0] := rfl
  rw [hr1]
  norm_num [List.getD]

/-- C4 (amended): for the lattice built from the single feature point [0]
with d = 1, compute on any value vector of any value_size returns the
value vector scaled by the constant 5/6 (channel k of the output is
5/6 times channel k of the input), rather than the unchanged vector. -/
theorem single_point_compute_scales (vs : ℕ) (inp : List ℚ) :
    compute (initTables (α := ℚ) [1] [[0]] 1) inp vs 0 0 (-1) (-1)
      = (List.range vs).map (fun k => 5 / 6 * inp.getD k 0) := by
  rw [initTables_single, compute_T1_eval]

theorem range_slicing_consistent_witness :
    (1 + 1 ≤ (initTables (α := ℚ) [1] [[0], [1/10]] 1).N ∧ 0 < 1 ∧ 0 < 1) ∧
    (compute (initTables (α := ℚ) [1] [[0], [1/10]] 1) [1, 0] 1 0 1 (-1) ((1 : ℕ) : ℤ)).getD
        (0 * 1 + 0) 0
      = (compute (initTables (α := ℚ) [1] [[0], [1/10]] 1) [1, 0] 1 0 0 (-1) (-1)).getD
          ((1 + 0) * 1 + 0) 0 := by
  have hN : 1 + 1 ≤ (initTables (α := ℚ) [1] [[0], [1/10]] 1).N := by
    simp [initTables]
  exact ⟨⟨hN, Nat.zero_lt_one, Nat.zero_lt_one⟩,
    range_slicing_consistent (initTables [1] [[0], [1/10]] 1) [1, 0] 1 0 (-1) 1 1 0 0
      hN Nat.zero_lt_one Nat.zero_lt_one⟩

/-! ### Theorems: the rank array (closed form, bounds, order) -/

theorem rank_foldl_eq (d : ℕ) (e : List α) (l : List (ℕ × ℕ)) (r0 : ℕ → ℤ) (x : ℕ) :
    (l.foldl (rankStep d e) r0) x = r0 x + (l.map (fun p => rankContrib d e p x)).sum := by
  induction l generalizing r0 with
  | nil => simp
  | cons p rest ih =>
    rw [List.foldl_cons, ih, List.map_cons, List.sum_cons]
    have hstep : rankStep d e r0 p x = r0 x + rankContrib d e p x := by
      simp only [rankStep, rankContrib]
      by_cases h : rho d e p.1 < rho d e p.2
      · by_cases h2 : x = p.1 <;> simp [h, h2, rankBump]
      · by_cases h2 : x = p.2 <;> simp [h, h2, rankBump]
    rw [hstep]
    ring

theorem mem_rankPairs (d : ℕ) (p : ℕ × ℕ) :
    p ∈ rankPairs d ↔ p.1 < p.2 ∧ p.2 ≤ d := by
  rcases p with ⟨a, b⟩
  simp only [rankPairs, List.mem_flatMap, List.mem_map, List.mem_range, Prod.mk.injEq]
  constructor
  · rintro ⟨i, hi, t, ht, rfl, rfl⟩
    omega
  · rintro ⟨h1, h2⟩
    exact ⟨a, by omega, b - a - 1, by omega, rfl, by omega⟩

theorem rankPairs_nodup (d : ℕ) : (rankPairs d).Nodup := by
  rw [rankPairs, List.nodup_flatMap]
  constructor
  · intro i _
    exact List.Nodup.map (fun a b h => by simp [Prod.mk.injEq] at h; omega)
      (List.nodup_range _)
  · refine (List.pairwise_lt_range d).imp ?_
    intro a b hab x hxa hxb
    simp only [Function.onFun, List.mem_map, List.mem_range] at hxa hxb
    obtain ⟨t1, -, rfl⟩ := hxa
    obtain ⟨t2, -, h2⟩ := hxb
    have := congrArg Prod.fst h2
    simp at this
    omega

theorem rankPre_eq_rankCount (d : ℕ) (e : List α) (x : ℕ) (hx : x ≤ d) :
    rankPre d e x = rankCount d e x := by
  rw [rankPre, rank_foldl_eq]
  have hbridge :
      ((rankPairs d).map (fun p => rankContrib d e p x)).sum
        = ∑ p ∈ (rankPairs d).toFinset, rankContrib d e p x :=
    (List.sum_toFinset _ (rankPairs_nodup d)).symm
  rw [hbridge]
  have hsplit : ∀ p : ℕ × ℕ, rankContrib d e p x
      = (if rho d e p.1 < rho d e p.2 ∧ x = p.1 then (1 : ℤ) else 0)
        + (if ¬(rho d e p.1 < rho d e p.2) ∧ x = p.2 then (1 : ℤ) else 0) := by
    intro p
    simp only [rankContrib]
    by_cases h : rho d e p.1 < rho d e p.2 <;> by_cases h1 : x = p.1 <;>
      by_cases h2 : x = p.2 <;> simp [h, h1, h2]
  rw [Finset.sum_congr rfl (fun p _ => hsplit p), Finset.sum_add_distrib,
    Finset.sum_boole, Finset.sum_boole]
  have hB1 : (rankPairs d).toFinset.filter (fun p => rho d e p.1 < rho d e p.2 ∧ x = p.1)
      = ((Finset.range (d + 1)).filter (fun j => x < j ∧ rho d e x < rho d e j)).image
          (fun j => (x, j)) := by
    ext p
    rcases p with ⟨a, b⟩
    simp only [Finset.mem_filter, List.mem_toFinset, mem_rankPairs, Finset.mem_image,
      Finset.mem_range, Prod.mk.injEq]
    constructor
    · rintro ⟨⟨hab, hbd⟩, hlt, rfl⟩
      exact ⟨b, ⟨by omega, hab, hlt⟩, rfl, rfl⟩
    · rintro ⟨j, ⟨hj, hxj, hlt⟩, rfl, rfl⟩
      exact ⟨⟨hxj, by omega⟩, hlt, rfl⟩
  have hB2 : (rankPairs d).toFinset.filter (fun p => ¬(rho d e p.1 < rho d e p.2) ∧ x = p.2)
      = ((Finset.range (d + 1)).filter (fun j => j < x ∧ ¬(rho d e j < rho d e x))).image
          (fun j => (j, x)) := by
    ext p
    rcases p with ⟨a, b⟩
    simp only [Finset.mem_filter, List.mem_toFinset, mem_rankPairs, Finset.mem_image,
      Finset.mem_range, Prod.mk.injEq]
    constructor
    · rintro ⟨⟨hab, hbd⟩, hlt, rfl⟩
      exact ⟨a, ⟨by omega, hab, hlt⟩, rfl, rfl⟩
    · rintro ⟨j, ⟨hj, hjx, hlt⟩, rfl, rfl⟩
      exact ⟨⟨hjx, by omega⟩, hlt, rfl⟩
  rw [hB1, hB2, Finset.card_image_of_injOn (fun a _ b _ h => by
      simpa using congrArg Prod.snd h),
    Finset.card_image_of_injOn (fun a _ b _ h => by
      simpa using congrArg Prod.fst h)]
  have hunion :
      (Finset.range (d + 1)).filter (fun j => beats d e j x)
        = ((Finset.range (d + 1)).filter (fun j => x < j ∧ rho d e x < rho d e j))
            ∪ ((Finset.range (d + 1)).filter (fun j => j < x ∧ ¬(rho d e j < rho d e x))) := by
    ext j
    simp only [Finset.mem_filter, Finset.mem_union, beats]
    constructor
    · rintro ⟨hj, hb | hb⟩
      · rcases Nat.lt_trichotomy j x with h | h | h
        · exact Or.inr ⟨hj, h, not_lt.mpr hb.le⟩
        · subst h
          exact absurd hb (lt_irrefl _)
        · exact Or.inl ⟨hj, h, hb⟩
      · exact Or.inr ⟨hj, hb.2, by rw [hb.1]; exact lt_irrefl _⟩
    · rintro (⟨hj, hxj, hlt⟩ | ⟨hj, hjx, hge⟩)
      · exact ⟨hj, Or.inl hlt⟩
      · push_neg at hge
        rcases lt_or_eq_of_le hge with h | h
        · exact ⟨hj, Or.inl h⟩
        · exact ⟨hj, Or.inr ⟨h.symm, hjx⟩⟩
  have hdisj : Disjoint
      ((Finset.range (d + 1)).filter (fun j => x < j ∧ rho d e x < rho d e j))
      ((Finset.range (d + 1)).filter (fun j => j < x ∧ ¬(rho d e j < rho d e x))) := by
    rw [Finset.disjoint_left]
    intro j hj1 hj2
    simp only [Finset.mem_filter] at hj1 hj2
    omega
  rw [rankCount, hunion, Finset.card_union_of_disjoint hdisj]
  push_cast
  ring

theorem beats_irrefl (d : ℕ) (e : List α) (x : ℕ) : ¬beats d e x x := by
  simp [beats]

theorem beats_trans (d : ℕ) (e : List α) {a b c : ℕ}
    (h1 : beats d e a b) (h2 : beats d e b c) : beats d e a c := by
  rcases h1 with h1 | ⟨h1, h1i⟩ <;> rcases h2 with h2 | ⟨h2, h2i⟩
  · exact Or.inl (lt_trans h2 h1)
  · exact Or.inl (h2 ▸ h1)
  · exact Or.inl (h1 ▸ h2)
  · exact Or.inr ⟨h1.trans h2, h1i.trans h2i⟩

theorem beats_total (d : ℕ) (e : List α) {a b : ℕ} (h : a ≠ b) :
    beats d e a b ∨ beats d e b a := by
  rcases lt_trichotomy (rho d e a) (rho d e b) with hr | hr | hr
  · exact Or.inr (Or.inl hr)
  · rcases Nat.lt_or_ge a b with hab | hab
    · exact Or.inl (Or.inr ⟨hr, hab⟩)
    · exact Or.inr (Or.inr ⟨hr.symm, by omega⟩)
  · exact Or.inl (Or.inl hr)

theorem rankCount_nonneg (d : ℕ) (e : List α) (x : ℕ) : 0 ≤ rankCount d e x :=
  Int.natCast_nonneg _

theorem rankCount_le (d : ℕ) (e : List α) (x : ℕ) (hx : x ≤ d) :
    rankCount d e x ≤ (d : ℤ) := by
  have hsub : (Finset.range (d + 1)).filter (fun j => beats d e j x)
      ⊆ (Finset.range (d + 1)).erase x := by
    intro j hj
    simp only [Finset.mem_filter] at hj
    refine Finset.mem_erase.mpr ⟨?_, hj.1⟩
    intro hj2
    exact beats_irrefl d e x (hj2 ▸ hj.2)
  have := Finset.card_le_card hsub
  rw [Finset.card_erase_of_mem (Finset.mem_range.mpr (by omega)),
    Finset.card_range] at this
  unfold rankCount
  omega

theorem rankCount_lt_of_beats (d : ℕ) (e : List α) {x y : ℕ}
    (hx : x ≤ d) (hb : beats d e x y) :
    rankCount d e x < rankCount d e y := by
  have hss : (Finset.range (d + 1)).filter (fun j => beats d e j x)
      ⊂ (Finset.range (d + 1)).filter (fun j => beats d e j y) := by
    constructor
    · intro j hj
      simp only [Finset.mem_filter] at hj ⊢
      exact ⟨hj.1, beats_trans d e hj.2 hb⟩
    · intro hcon
      have hxin : x ∈ (Finset.range (d + 1)).filter (fun j => beats d e j y) := by
        simp only [Finset.mem_filter, Finset.mem_range]
        exact ⟨by omega, hb⟩
      have := hcon hxin
      simp only [Finset.mem_filter] at this
      exact beats_irrefl d e x this.2
  unfold rankCount
  exact_mod_cast Finset.card_lt_card hss

theorem rankCount_inj (d : ℕ) (e : List α) {x y : ℕ}
    (hx : x ≤ d) (hy : y ≤ d) (hne : x ≠ y) :
    rankCount d e x ≠ rankCount d e y := by
  rcases beats_total d e hne with h | h
  · exact ne_of_lt (rankCount_lt_of_beats d e hx h)
  · exact (ne_of_lt (rankCount_lt_of_beats d e hy h)).symm

/-- If x is ranked strictly before y (smaller count) then x's residual is
at least y's. -/
theorem rho_antitone (d : ℕ) (e : List α) {x y : ℕ}
    (hx : x ≤ d) (hy : y ≤ d)
    (h : rankCount d e x < rankCount d e y) : rho d e y ≤ rho d e x := by
  by_contra hcon
  push_neg at hcon
  have : rankCount d e y < rankCount d e x :=
    rankCount_lt_of_beats d e hy (Or.inl hcon)
  omega

/-! ### Theorems: bound on the plane-offset sum (uses the elevation sum) -/

theorem elev_foldr_length (n : ℕ) (cf : List α) :
    ((cf.enumFrom n).foldr elevStep ([], 0)).1.length = cf.length := by
  induction cf generalizing n with
  | nil => simp [List.enumFrom]
  | cons c rest ih =>
    simp only [List.enumFrom, List.foldr_cons, elevStep, List.length_cons]
    rw [ih (n + 1)]

theorem elevate_length (scale f : List α) (d : ℕ) (hf : f.length = d)
    (hs : d ≤ scale.length) : (elevate scale f).length = d + 1 := by
  unfold elevate
  simp only [List.enum, List.length_cons]
  rw [elev_foldr_length]
  rw [List.length_zipWith]
  omega

theorem sum_range_getD (l : List α) :
    ∑ i ∈ Finset.range l.length, l.getD i 0 = l.sum := by
  induction l with
  | nil => simp
  | cons a rest ih =>
    rw [List.length_cons, Finset.sum_range_succ', List.sum_cons]
    have h0 : (a :: rest).getD 0 0 = a := rfl
    have hs : ∀ i, (a :: rest).getD (i + 1) 0 = rest.getD i 0 := fun i => rfl
    simp only [h0, hs]
    rw [ih]
    ring

/-- The plane-offset sum satisfies 2|sum| <= d+1: each rounded coordinate
is within 1/2 of the exact one and the exact ones sum to zero. -/
theorem sumRd_bound (d : ℕ) (scale f : List α) (hf : f.length = d)
    (hs : d ≤ scale.length) :
    2 * |sumRd d (elevate scale f)| ≤ (d : ℤ) + 1 := by
  set e := elevate scale f with he
  have hlen : e.length = d + 1 := elevate_length scale f d hf hs
  have hsum0 : ∑ i ∈ Finset.range (d + 1), elevAt e i = 0 := by
    have : ∑ i ∈ Finset.range (d + 1), elevAt e i = e.sum := by
      rw [← hlen]
      exact sum_range_getD e
    rw [this, he]
    exact elevate_sum scale f
  have hx0 : ∑ i ∈ Finset.range (d + 1), down_factor (α := α) d * elevAt e i = 0 := by
    rw [← Finset.mul_sum, hsum0, mul_zero]
  have hcast : ((sumRd d e : ℤ) : α)
      = ∑ i ∈ Finset.range (d + 1), ((rd d e i : ℤ) : α) := by
    unfold sumRd
    rw [← List.sum_toFinset _ (List.nodup_range (d + 1))]
    · push_cast
      refine Finset.sum_congr ?_ (fun i _ => rfl)
      ext i
      simp
  have habs : |((sumRd d e : ℤ) : α)| ≤ ((d : α) + 1) / 2 := by
    rw [hcast]
    have hstep : ∑ i ∈ Finset.range (d + 1), ((rd d e i : ℤ) : α)
        = ∑ i ∈ Finset.range (d + 1),
            (((rd d e i : ℤ) : α) - down_factor d * elevAt e i) := by
      rw [Finset.sum_sub_distrib, hx0, sub_zero]
    rw [hstep]
    calc |∑ i ∈ Finset.range (d + 1), (((rd d e i : ℤ) : α) - down_factor d * elevAt e i)|
        ≤ ∑ i ∈ Finset.range (d + 1), |((rd d e i : ℤ) : α) - down_factor d * elevAt e i| :=
          Finset.abs_sum_le_sum_abs _ _
      _ ≤ ∑ i ∈ Finset.range (d + 1), (1 / 2 : α) := by
          refine Finset.sum_le_sum (fun i _ => ?_)
          rw [abs_sub_comm]
          exact abs_sub_round (α := α) (down_factor d * elevAt e i)
      _ = ((d : α) + 1) / 2 := by
          rw [Finset.sum_const, Finset.card_range]
          push_cast
          ring
  have h2 : ((2 * |sumRd d e| : ℤ) : α) ≤ (((d : ℤ) + 1 : ℤ) : α) := by
    push_cast
    linarith [habs]
  exact_mod_cast h2

/-- The pre-correction ranks lie in [0, d]. -/
theorem rankPre_bounds (d : ℕ) (e : List α) (x : ℕ) (hx : x ≤ d) :
    0 ≤ rankPre d e x ∧ rankPre d e x ≤ (d : ℤ) := by
  rw [rankPre_eq_rankCount d e x hx]
  exact ⟨rankCount_nonneg d e x, rankCount_le d e x hx⟩

/-- C6: for every feature point (any scale factors, feature of length d),
after the plane-offset correction every entry of the rank array lies in
[0, d]; consequently the barycentric accumulation indices d - rank i and
d - rank i + 1 always lie within the bounds 0..d+1 of the (d+2)-slot
barycentric array, so the single add-or-subtract of d+1 suffices. -/
theorem rank_corrected_in_range (d : ℕ) (scale f : List α) (hf : f.length = d)
    (hs : d ≤ scale.length) (i : ℕ) (hi : i ≤ d) :
    (0 ≤ rankCor d (elevate scale f) i ∧ rankCor d (elevate scale f) i ≤ (d : ℤ)) ∧
    (0 ≤ (d : ℤ) - rankCor d (elevate scale f) i ∧
     (d : ℤ) - rankCor d (elevate scale f) i + 1 ≤ (d : ℤ) + 1) := by
  obtain ⟨h1, h2⟩ := rankPre_bounds d (elevate scale f) i hi
  have h3 := sumRd_bound d scale f hf hs
  have h4 : 2 * sumRd d (elevate scale f) ≤ (d : ℤ) + 1 ∧
      -((d : ℤ) + 1) ≤ 2 * sumRd d (elevate scale f) := by
    rcases abs_cases (sumRd d (elevate scale f)) with ⟨heq, hge⟩ | ⟨heq, hlt⟩ <;>
      rw [heq] at h3 <;> constructor <;> omega
  simp only [rankCor]
  split_ifs <;> omega

theorem rank_corrected_in_range_witness :
    (([0] : List ℚ).length = 1 ∧ 1 ≤ ([1] : List ℚ).length ∧ 0 ≤ 1) ∧
    ((0 ≤ rankCor 1 (elevate (α := ℚ) [1] [0]) 0 ∧
      rankCor 1 (elevate (α := ℚ) [1] [0]) 0 ≤ ((1 : ℕ) : ℤ)) ∧
     (0 ≤ ((1 : ℕ) : ℤ) - rankCor 1 (elevate (α := ℚ) [1] [0]) 0 ∧
      ((1 : ℕ) : ℤ) - rankCor 1 (elevate (α := ℚ) [1] [0]) 0 + 1 ≤ ((1 : ℕ) : ℤ) + 1)) :=
  ⟨⟨rfl, by decide, by decide⟩,
   rank_corrected_in_range 1 [1] [0] rfl (by decide) 0 (by decide)⟩

/-! ### Theorems: barycentric weights (C2) -/

theorem baryUpd_apply (d : ℕ) (e : List α) (b : ℤ → α) (i : ℕ) (x : ℤ) :
    baryUpd d e b i x = b x + (if x = (d : ℤ) - rankCor d e i then vA d e i else 0)
      + (if x = (d : ℤ) - rankCor d e i + 1 then -vA d e i else 0) := by
  simp only [baryUpd]
  split_ifs with h1 h2
  · exact absurd h2 (by omega)
  · ring
  · ring
  · ring

theorem bary_foldl_eq (d : ℕ) (e : List α) (l : List ℕ) (b0 : ℤ → α) (x : ℤ) :
    (l.foldl (baryUpd d e) b0) x
      = b0 x + (l.map (fun i =>
          (if x = (d : ℤ) - rankCor d e i then vA d e i else 0)
          + (if x = (d : ℤ) - rankCor d e i + 1 then -vA d e i else 0))).sum := by
  induction l generalizing b0 with
  | nil => simp
  | cons i rest ih =>
    rw [List.foldl_cons, ih, List.map_cons, List.sum_cons, baryUpd_apply]
    ring

theorem baryAcc_eq_sum (d : ℕ) (e : List α) (x : ℤ) :
    baryAcc d e x = ∑ i ∈ Finset.range (d + 1),
      ((if x = (d : ℤ) - rankCor d e i then vA d e i else 0)
        + (if x = (d : ℤ) - rankCor d e i + 1 then -vA d e i else 0)) := by
  rw [baryAcc, bary_foldl_eq]
  rw [← List.sum_toFinset _ (List.nodup_range (d + 1))]
  have h1 : (List.range (d + 1)).toFinset = Finset.range (d + 1) := by
    ext i
    simp
  rw [h1]
  exact zero_add _

/-- The sum of the d+2 barycentric accumulator slots is zero: every
coordinate adds v at one in-range slot and subtracts it at the next. -/
theorem baryAcc_total (d : ℕ) (e : List α)
    (hb : ∀ i, i < d + 1 → 0 ≤ (d : ℤ) - rankCor d e i ∧ (d : ℤ) - rankCor d e i ≤ (d : ℤ)) :
    ∑ x ∈ Finset.range (d + 2), baryAcc d e (x : ℤ) = 0 := by
  have hswap : ∑ x ∈ Finset.range (d + 2), baryAcc d e (x : ℤ)
      = ∑ i ∈ Finset.range (d + 1), ∑ x ∈ Finset.range (d + 2),
          ((if (x : ℤ) = (d : ℤ) - rankCor d e i then vA d e i else 0)
            + (if (x : ℤ) = (d : ℤ) - rankCor d e i + 1 then -vA d e i else 0)) := by
    rw [← Finset.sum_comm]
    exact Finset.sum_congr rfl (fun x _ => baryAcc_eq_sum d e (x : ℤ))
  rw [hswap]
  refine Finset.sum_eq_zero (fun i hi => ?_)
  rw [Finset.mem_range] at hi
  obtain ⟨hb1, hb2⟩ := hb i hi
  rw [Finset.sum_add_distrib]
  have hA : ∑ x ∈ Finset.range (d + 2),
      (if (x : ℤ) = (d : ℤ) - rankCor d e i then vA d e i else 0) = vA d e i := by
    have hcond : ∀ x : ℕ, ((x : ℤ) = (d : ℤ) - rankCor d e i)
        = (x = ((d : ℤ) - rankCor d e i).toNat) := fun x => propext (by omega)
    simp only [hcond]
    rw [Finset.sum_ite_eq' (Finset.range (d + 2))]
    rw [if_pos (Finset.mem_range.mpr (by omega))]
  have hB : ∑ x ∈ Finset.range (d + 2),
      (if (x : ℤ) = (d : ℤ) - rankCor d e i + 1 then -vA d e i else 0) = -vA d e i := by
    have hcond : ∀ x : ℕ, ((x : ℤ) = (d : ℤ) - rankCor d e i + 1)
        = (x = ((d : ℤ) - rankCor d e i + 1).toNat) := fun x => propext (by omega)
    simp only [hcond]
    rw [Finset.sum_ite_eq' (Finset.range (d + 2))]
    rw [if_pos (Finset.mem_range.mpr (by omega))]
  rw [hA, hB]
  ring

/-- The d+1 stored weights of a point sum to exactly 1. -/
theorem pointWeights_sum (d : ℕ) (e : List α)
    (hb : ∀ i, i < d + 1 → 0 ≤ (d : ℤ) - rankCor d e i ∧ (d : ℤ) - rankCor d e i ≤ (d : ℤ)) :
    (pointWeights d e).sum = 1 := by
  have hbridge : (pointWeights d e).sum = ∑ r ∈ Finset.range (d + 1), weight d e r := by
    rw [pointWeights, ← List.sum_toFinset _ (List.nodup_range (d + 1))]
    refine Finset.sum_congr ?_ (fun i _ => rfl)
    ext i
    simp
  rw [hbridge]
  have hW : ∀ r : ℕ, weight d e r
      = baryAcc d e (r : ℤ) + (if r = 0 then 1 + baryAcc d e ((d : ℤ) + 1) else 0) := by
    intro r
    simp only [weight]
    split_ifs with h
    · subst h
      push_cast
      ring
    · ring
  rw [Finset.sum_congr rfl (fun r _ => hW r), Finset.sum_add_distrib]
  have hsingle : ∑ r ∈ Finset.range (d + 1),
      (if r = 0 then 1 + baryAcc d e ((d : ℤ) + 1) else 0)
        = 1 + baryAcc d e ((d : ℤ) + 1) := by
    rw [Finset.sum_ite_eq' (Finset.range (d + 1)) 0
      (fun _ => 1 + baryAcc d e ((d : ℤ) + 1))]
    rw [if_pos (Finset.mem_range.mpr (by omega))]
  rw [hsingle]
  have htotal := baryAcc_total d e hb
  rw [Finset.sum_range_succ] at htotal
  have hlast : ((d + 1 : ℕ) : ℤ) = (d : ℤ) + 1 := by push_cast; ring
  rw [hlast] at htotal
  have hrange : ∑ x ∈ Finset.range (d + 1), baryAcc d e (x : ℤ)
      = ∑ r ∈ Finset.range (d + 1), baryAcc d e (r : ℤ) := rfl
  linarith [htotal]

theorem down_factor_pos (d : ℕ) : (0 : α) < down_factor d := by
  unfold down_factor
  positivity

/-- The uncorrected scaled residual is the rounding error of
down_factor * elevated i. -/
theorem vP_eq (d : ℕ) (e : List α) (i : ℕ) :
    rho d e i * down_factor d = down_factor d * elevAt e i - ((rd d e i : ℤ) : α) := by
  have hne : ((d : α) + 1) ≠ 0 := by positivity
  unfold rho rem0 down_factor
  push_cast
  field_simp
  ring

/-- The scaled residual lies in [-1/2, 1/2]. -/
theorem vP_bound (d : ℕ) (e : List α) (i : ℕ) :
    |rho d e i * down_factor d| ≤ 1 / 2 := by
  rw [vP_eq]
  exact abs_sub_round (α := α) (down_factor d * elevAt e i)

theorem vA_mid (d : ℕ) (e : List α) (i : ℕ)
    (h1 : ¬(rankPre d e i + sumRd d e < 0)) (h2 : ¬(rankPre d e i + sumRd d e > (d : ℤ))) :
    vA d e i = rho d e i * down_factor d := by
  simp only [vA, rem0Cor, if_neg h1, if_neg h2, rho]

theorem vA_lt (d : ℕ) (e : List α) (i : ℕ)
    (h1 : rankPre d e i + sumRd d e < 0) :
    vA d e i = rho d e i * down_factor d - 1 := by
  have hne : ((d : α) + 1) ≠ 0 := by positivity
  simp only [vA, rem0Cor, if_pos h1, rho, down_factor]
  push_cast
  field_simp
  ring

theorem vA_gt (d : ℕ) (e : List α) (i : ℕ)
    (h1 : ¬(rankPre d e i + sumRd d e < 0)) (h2 : rankPre d e i + sumRd d e > (d : ℤ)) :
    vA d e i = rho d e i * down_factor d + 1 := by
  have hne : ((d : α) + 1) ≠ 0 := by positivity
  simp only [vA, rem0Cor, if_neg h1, if_pos h2, rho, down_factor]
  push_cast
  field_simp
  ring

theorem rankPre_antitone (d : ℕ) (e : List α) {i j : ℕ} (hi : i ≤ d) (hj : j ≤ d)
    (h : rankPre d e i < rankPre d e j) : rho d e j ≤ rho d e i := by
  rw [rankPre_eq_rankCount d e i hi, rankPre_eq_rankCount d e j hj] at h
  exact rho_antitone d e hi hj h

theorem rankPre_inj (d : ℕ) (e : List α) {i j : ℕ} (hi : i ≤ d) (hj : j ≤ d)
    (h : rankPre d e i = rankPre d e j) : i = j := by
  by_contra hne
  rw [rankPre_eq_rankCount d e i hi, rankPre_eq_rankCount d e j hj] at h
  exact rankCount_inj d e hi hj hne h

/-- The scaled residuals are antitone in residual ranking. -/
theorem vP_antitone (d : ℕ) (e : List α) {i j : ℕ} (hi : i ≤ d) (hj : j ≤ d)
    (h : rankPre d e i < rankPre d e j) :
    rho d e j * down_factor d ≤ rho d e i * down_factor d :=
  mul_le_mul_of_nonneg_right (rankPre_antitone d e hi hj h) (down_factor_pos d).le

/-- The corrected ranks are injective on 0..d. -/
theorem rankCor_injOn (d : ℕ) (scale f : List α) (hf : f.length = d)
    (hs : d ≤ scale.length) {i j : ℕ} (hi : i ≤ d) (hj : j ≤ d)
    (h : rankCor d (elevate scale f) i = rankCor d (elevate scale f) j) : i = j := by
  set e := elevate scale f with he
  obtain ⟨ha1, ha2⟩ := rankPre_bounds d e i hi
  obtain ⟨hb1, hb2⟩ := rankPre_bounds d e j hj
  have h3 := sumRd_bound d scale f hf hs
  have h4 : 2 * sumRd d e ≤ (d : ℤ) + 1 ∧ -((d : ℤ) + 1) ≤ 2 * sumRd d e := by
    rcases abs_cases (sumRd d e) with ⟨heq, hge⟩ | ⟨heq, hlt⟩ <;>
      rw [← he, heq] at h3 <;> constructor <;> omega
  apply rankPre_inj d e hi hj
  simp only [rankCor] at h
  split_ifs at h <;> omega

/-- The corrected ranks are antitone in the corrected scaled residuals. -/
theorem rankCor_antitone (d : ℕ) (scale f : List α) (hf : f.length = d)
    (hs : d ≤ scale.length) {i j : ℕ} (hi : i ≤ d) (hj : j ≤ d)
    (h : rankCor d (elevate scale f) i < rankCor d (elevate scale f) j) :
    vA d (elevate scale f) j ≤ vA d (elevate scale f) i := by
  set e := elevate scale f with he
  obtain ⟨ha1, ha2⟩ := rankPre_bounds d e i hi
  obtain ⟨hb1, hb2⟩ := rankPre_bounds d e j hj
  have h3 := sumRd_bound d scale f hf hs
  have h4 : 2 * sumRd d e ≤ (d : ℤ) + 1 ∧ -((d : ℤ) + 1) ≤ 2 * sumRd d e := by
    rcases abs_cases (sumRd d e) with ⟨heq, hge⟩ | ⟨heq, hlt⟩ <;>
      rw [← he, heq] at h3 <;> constructor <;> omega
  have hvi := abs_le.mp (vP_bound d e i)
  have hvj := abs_le.mp (vP_bound d e j)
  simp only [rankCor] at h
  split_ifs at h with c1 c3 c4 c2 c3' c4' c3'' c4''
  · -- both in the low-wrap branch
    rw [vA_lt d e i c1, vA_lt d e j c3]
    have := vP_antitone d e hi hj (by omega)
    linarith
  · exfalso; omega
  · exfalso; omega
  · exfalso; omega
  · -- both in the high-wrap branch
    rw [vA_gt d e i (by omega) c2, vA_gt d e j (by omega) c4']
    have := vP_antitone d e hi hj (by omega)
    linarith
  · -- i high-wrap, j mid
    rw [vA_gt d e i (by omega) c2, vA_mid d e j (by omega) (by omega)]
    linarith
  · -- i mid, j low-wrap
    rw [vA_mid d e i (by omega) (by omega), vA_lt d e j c3'']
    linarith
  · exfalso; omega
  · -- both mid
    rw [vA_mid d e i (by omega) (by omega), vA_mid d e j (by omega) (by omega)]
    exact vP_antitone d e hi hj (by omega)

/-- Any two corrected scaled residuals differ by at most 1. -/
theorem vA_diff_le_one (d : ℕ) (scale f : List α) (hf : f.length = d)
    (hs : d ≤ scale.length) {i j : ℕ} (hi : i ≤ d) (hj : j ≤ d) :
    vA d (elevate scale f) i - vA d (elevate scale f) j ≤ 1 := by
  set e := elevate scale f with he
  obtain ⟨ha1, ha2⟩ := rankPre_bounds d e i hi
  obtain ⟨hb1, hb2⟩ := rankPre_bounds d e j hj
  have h3 := sumRd_bound d scale f hf hs
  have h4 : 2 * sumRd d e ≤ (d : ℤ) + 1 ∧ -((d : ℤ) + 1) ≤ 2 * sumRd d e := by
    rcases abs_cases (sumRd d e) with ⟨heq, hge⟩ | ⟨heq, hlt⟩ <;>
      rw [← he, heq] at h3 <;> constructor <;> omega
  have hvi := abs_le.mp (vP_bound d e i)
  have hvj := abs_le.mp (vP_bound d e j)
  by_cases c1 : rankPre d e i + sumRd d e < 0
  · rw [vA_lt d e i c1]
    by_cases c3 : rankPre d e j + sumRd d e < 0
    · rw [vA_lt d e j c3]
      linarith
    · rw [vA_mid d e j c3 (by omega)]
      linarith
  · by_cases c2 : rankPre d e i + sumRd d e > (d : ℤ)
    · rw [vA_gt d e i c1 c2]
      by_cases c4 : rankPre d e j + sumRd d e > (d : ℤ)
      · rw [vA_gt d e j (by omega) c4]
        linarith
      · -- i wrapped high, j not: j has a strictly smaller pre-rank, so a
        -- larger residual, and the +1 shift keeps the difference below 1
        rw [vA_mid d e j (by omega) c4]
        have hpre : rankPre d e j < rankPre d e i := by omega
        have := vP_antitone d e hj hi hpre
        linarith
    · rw [vA_mid d e i c1 c2]
      by_cases c3 : rankPre d e j + sumRd d e < 0
      · -- j wrapped low, i not: j has the smaller pre-rank, larger residual
        rw [vA_lt d e j c3]
        have hpre : rankPre d e j < rankPre d e i := by omega
        have := vP_antitone d e hj hi hpre
        linarith
      · by_cases c4 : rankPre d e j + sumRd d e > (d : ℤ)
        · rw [vA_gt d e j c3 c4]
          linarith
        · rw [vA_mid d e j c3 c4]
          linarith

/-- Every value in [0, d] is attained by some corrected rank. -/
theorem rankCor_surj (d : ℕ) (scale f : List α) (hf : f.length = d)
    (hs : d ≤ scale.length) (m : ℤ) (hm0 : 0 ≤ m) (hmd : m ≤ (d : ℤ)) :
    ∃ i, i < d + 1 ∧ rankCor d (elevate scale f) i = m := by
  set e := elevate scale f with he
  have himg : (Finset.range (d + 1)).image (rankCor d e) = Finset.Icc 0 (d : ℤ) := by
    apply Finset.eq_of_subset_of_card_le
    · intro m hm
      simp only [Finset.mem_image, Finset.mem_range] at hm
      obtain ⟨i, hi, rfl⟩ := hm
      have hb := (rank_corrected_in_range d scale f hf hs i (by omega)).1
      exact Finset.mem_Icc.mpr ⟨hb.1, hb.2⟩
    · rw [Finset.card_image_of_injOn, Finset.card_range]
      · rw [Int.card_Icc]
        omega
      · intro a ha b hb hab
        simp only [Finset.coe_range, Set.mem_Iio] at ha hb
        exact rankCor_injOn d scale f hf hs (by omega) (by omega) hab
  have hmem : m ∈ (Finset.range (d + 1)).image (rankCor d e) := by
    rw [himg]
    exact Finset.mem_Icc.mpr ⟨hm0, hmd⟩
  simp only [Finset.mem_image, Finset.mem_range] at hmem
  obtain ⟨i, hi, hieq⟩ := hmem
  exact ⟨i, hi, hieq⟩

/-- Summing an indicator of a corrected rank value picks out the unique
attaining index. -/
theorem sum_filter_rankCor (d : ℕ) (scale f : List α) (hf : f.length = d)
    (hs : d ≤ scale.length) (m : ℤ) (i0 : ℕ) (hi0 : i0 < d + 1)
    (hm : rankCor d (elevate scale f) i0 = m) (g : ℕ → α) :
    ∑ i ∈ Finset.range (d + 1),
        (if rankCor d (elevate scale f) i = m then g i else 0) = g i0 := by
  rw [Finset.sum_eq_single_of_mem i0 (Finset.mem_range.mpr hi0)]
  · exact if_pos hm
  · intro b hb hne
    rw [Finset.mem_range] at hb
    rw [if_neg]
    intro hbm
    exact hne (rankCor_injOn d scale f hf hs (by omega) (by omega) (hbm.trans hm.symm))

/-- Every stored barycentric weight of a point is nonnegative. -/
theorem weight_nonneg (d : ℕ) (scale f : List α) (hf : f.length = d)
    (hs : d ≤ scale.length) (r : ℕ) (hr : r ≤ d) :
    0 ≤ weight d (elevate scale f) r := by
  have hbnd : ∀ i, i ≤ d → 0 ≤ rankCor d (elevate scale f) i ∧
      rankCor d (elevate scale f) i ≤ (d : ℤ) := by
    intro i hi
    exact (rank_corrected_in_range d scale f hf hs i hi).1
  rcases Nat.eq_zero_or_pos r with hr0 | hr1
  · subst hr0
    obtain ⟨iD, hiD, hiDeq⟩ := rankCor_surj d scale f hf hs (d : ℤ) (by omega) le_rfl
    obtain ⟨i0, hi0, hi0eq⟩ := rankCor_surj d scale f hf hs 0 le_rfl (by omega)
    have hA : baryAcc d (elevate scale f) 0 = vA d (elevate scale f) iD := by
      rw [baryAcc_eq_sum, Finset.sum_add_distrib]
      have hc1 : ∀ i : ℕ, ((0 : ℤ) = (d : ℤ) - rankCor d (elevate scale f) i)
          = (rankCor d (elevate scale f) i = (d : ℤ)) := fun i => propext (by omega)
      have hz2 : ∑ i ∈ Finset.range (d + 1),
          (if (0 : ℤ) = (d : ℤ) - rankCor d (elevate scale f) i + 1
            then -vA d (elevate scale f) i else 0) = 0 := by
        refine Finset.sum_eq_zero (fun i hi => ?_)
        rw [Finset.mem_range] at hi
        have := (hbnd i (by omega)).2
        rw [if_neg (by omega)]
      simp only [hc1]
      rw [hz2, sum_filter_rankCor d scale f hf hs (d : ℤ) iD hiD hiDeq]
      ring
    have hB : baryAcc d (elevate scale f) ((d : ℤ) + 1) = -vA d (elevate scale f) i0 := by
      rw [baryAcc_eq_sum, Finset.sum_add_distrib]
      have hz1 : ∑ i ∈ Finset.range (d + 1),
          (if ((d : ℤ) + 1) = (d : ℤ) - rankCor d (elevate scale f) i
            then vA d (elevate scale f) i else 0) = 0 := by
        refine Finset.sum_eq_zero (fun i hi => ?_)
        rw [Finset.mem_range] at hi
        have := (hbnd i (by omega)).1
        rw [if_neg (by omega)]
      have hc2 : ∀ i : ℕ, (((d : ℤ) + 1) = (d : ℤ) - rankCor d (elevate scale f) i + 1)
          = (rankCor d (elevate scale f) i = 0) := fun i => propext (by omega)
      simp only [hc2]
      rw [hz1, sum_filter_rankCor d scale f hf hs 0 i0 hi0 hi0eq]
      ring
    have hdiff : vA d (elevate scale f) i0 - vA d (elevate scale f) iD ≤ 1 :=
      vA_diff_le_one d scale f hf hs (by omega) (by omega)
    have hw : weight d (elevate scale f) 0
        = baryAcc d (elevate scale f) 0 + (1 + baryAcc d (elevate scale f) ((d : ℤ) + 1)) := by
      simp [weight]
    rw [hw, hA, hB]
    linarith
  · obtain ⟨iA, hiAlt, hiAeq⟩ :=
      rankCor_surj d scale f hf hs ((d : ℤ) - r) (by omega) (by omega)
    obtain ⟨iB, hiBlt, hiBeq⟩ :=
      rankCor_surj d scale f hf hs ((d : ℤ) - r + 1) (by omega) (by omega)
    have hW : weight d (elevate scale f) r = baryAcc d (elevate scale f) (r : ℤ) := by
      simp only [weight, if_neg (by omega : ¬r = 0)]
    rw [hW, baryAcc_eq_sum, Finset.sum_add_distrib]
    have hc1 : ∀ i : ℕ, (((r : ℕ) : ℤ) = (d : ℤ) - rankCor d (elevate scale f) i)
        = (rankCor d (elevate scale f) i = (d : ℤ) - (r : ℤ)) := fun i => propext (by omega)
    have hc2 : ∀ i : ℕ, (((r : ℕ) : ℤ) = (d : ℤ) - rankCor d (elevate scale f) i + 1)
        = (rankCor d (elevate scale f) i = (d : ℤ) - (r : ℤ) + 1) := fun i => propext (by omega)
    simp only [hc1, hc2]
    rw [sum_filter_rankCor d scale f hf hs ((d : ℤ) - r) iA hiAlt hiAeq,
      sum_filter_rankCor d scale f hf hs ((d : ℤ) - r + 1) iB hiBlt hiBeq]
    have hlt : rankCor d (elevate scale f) iA < rankCor d (elevate scale f) iB := by
      rw [hiAeq, hiBeq]
      omega
    have := rankCor_antitone d scale f hf hs (by omega) (by omega) hlt
    linarith

/-! ### Theorems: C2 (the stored weights) -/

theorem pointWeights_length (d : ℕ) (e : List α) : (pointWeights d e).length = d + 1 := by
  simp [pointWeights]

theorem getD_map_list {β : Type} (g : β → List α) (l : List β) (k : ℕ)
    (hk : k < l.length) (b0 : List α) (c0 : β) :
    (l.map g).getD k b0 = g (l.getD k c0) := by
  rw [List.getD_eq_getElem?_getD, List.getElem?_map, List.getD_eq_getElem?_getD,
    List.getElem?_eq_getElem hk]
  rfl

theorem flatMap_blocks_getD {β : Type} (F : β → List α) (L : ℕ) (l : List β) (c0 : β)
    (hL : ∀ b ∈ l, (F b).length = L) (k r : ℕ) (hk : k < l.length) (hr : r < L) :
    (l.flatMap F).getD (k * L + r) 0 = (F (l.getD k c0)).getD r 0 := by
  induction l generalizing k with
  | nil => simp at hk
  | cons b rest ih =>
    rcases k with _ | k
    · have hidx : 0 * L + r = r := by omega
      rw [hidx, List.flatMap_cons]
      rw [List.getD_append]
      · rfl
      · rw [hL b (List.mem_cons_self b rest)]
        omega
    · rw [List.flatMap_cons, List.getD_append_right]
      · rw [hL b (List.mem_cons_self b rest)]
        have harith : (k + 1) * L + r - L = k * L + r := by
          rw [Nat.succ_mul]
          omega
        rw [harith]
        exact ih (fun b hb => hL b (List.mem_cons_of_mem _ hb)) k
          (by simpa using hk)
      · rw [hL b (List.mem_cons_self b rest)]
        calc L = 1 * L := (one_mul L).symm
        _ ≤ (k + 1) * L := Nat.mul_le_mul_right L (by omega)
        _ ≤ (k + 1) * L + r := by omega

/-- C2: for every feature set (d >= 1, every feature of length d), and
every point k, the d+1 barycentric weights stored by init at
barycentric_ slots k*(d+1)..k*(d+1)+d sum to exactly 1 and each weight is
nonnegative (exact arithmetic; in floats this is equality within rounding
tolerance). -/
theorem barycentric_weights_sum_one_nonneg (d : ℕ) (scale : List α)
    (features : List (List α)) (k : ℕ) (hd : 1 ≤ d) (hk : k < features.length)
    (hf : ∀ g ∈ features, g.length = d) (hs : d ≤ scale.length) :
    ((List.range (d + 1)).map
        (fun r => (initTables scale features d).barycentric.getD (k * (d + 1) + r) 0)).sum = 1 ∧
    ∀ r, r ≤ d → 0 ≤ (initTables scale features d).barycentric.getD (k * (d + 1) + r) 0 := by
  have hfk : (features.getD k []).length = d := by
    refine hf _ ?_
    rw [List.getD_eq_getElem?_getD, List.getElem?_eq_getElem hk]
    exact List.getElem_mem hk
  have hbar : (initTables scale features d).barycentric
      = (features.map (elevate scale)).flatMap (pointWeights d) := rfl
  have hgetD : ∀ r, r < d + 1 →
      (initTables scale features d).barycentric.getD (k * (d + 1) + r) 0
        = weight d (elevate scale (features.getD k [])) r := by
    intro r hr
    rw [hbar, flatMap_blocks_getD (pointWeights d) (d + 1) (features.map (elevate scale))
      (elevate scale []) (fun b hb => pointWeights_length d b) k r
      (by simpa using hk) hr]
    rw [getD_map_list (elevate scale) features k hk (elevate scale []) []]
    · rw [pointWeights]
      rw [List.getD_eq_getElem?_getD, List.getElem?_map, List.getElem?_range hr]
      rfl
  constructor
  · have hmap : (List.range (d + 1)).map
        (fun r => (initTables scale features d).barycentric.getD (k * (d + 1) + r) 0)
          = (List.range (d + 1)).map (weight d (elevate scale (features.getD k []))) := by
      refine List.map_congr_left (fun r hrm => ?_)
      rw [List.mem_range] at hrm
      exact hgetD r hrm
    rw [hmap]
    refine pointWeights_sum d (elevate scale (features.getD k [])) (fun i hi => ?_)
    have := (rank_corrected_in_range d scale (features.getD k []) hfk hs i (by omega)).2
    omega
  · intro r hr
    rw [hgetD r (by omega)]
    exact weight_nonneg d scale (features.getD k []) hfk hs r hr

theorem barycentric_weights_sum_one_nonneg_witness :
    (1 ≤ 1 ∧ 0 < ([[0]] : List (List ℚ)).length ∧
     (∀ g ∈ ([[0]] : List (List ℚ)), g.length = 1) ∧ 1 ≤ ([1] : List ℚ).length) ∧
    (((List.range (1 + 1)).map
        (fun r => (initTables (α := ℚ) [1] [[0]] 1).barycentric.getD (0 * (1 + 1) + r) 0)).sum = 1 ∧
     ∀ r, r ≤ 1 → 0 ≤ (initTables (α := ℚ) [1] [[0]] 1).barycentric.getD (0 * (1 + 1) + r) 0) :=
  ⟨⟨le_rfl, by decide, by intro g hg; simp at hg; rw [hg]; rfl, by decide⟩,
   barycentric_weights_sum_one_nonneg 1 [1] [[0]] 0 le_rfl (by decide)
     (by intro g hg; simp at hg; rw [hg]; rfl) (by decide)⟩

end Permutohedral
